import Mathlib

/-!
Verification of the range-over-functions demo repository.

The repository implements, in Go:
* a generic singly linked stack (`Stack`, `node`, `Push`, `Pop`) with an
  external cursor (`StackIterator`, `Items`, `Next`) and push-style
  sequence producers (`Iter`, `Iter2`);
* a generic `Filter` over a slice, returning a push-style producer;
* a generic `Max` over a sequence, consuming it through `iter.Pull`,
  duplicated in a second demo file with extra debug printing.

Embedding conventions:
* Go slices and the value streams of sequences are `List`s.
* The Go heap of stack nodes is modelled explicitly (`Mem`): a node lives
  at a `Nat` address, `Push` allocates at the next fresh address, and both
  the stack head and a cursor are `Option Nat` pointers into that heap.
  Nodes are never mutated after allocation, exactly as in the source.
* Go's zero value (`var v T`) is `default` from an `Inhabited` instance.
* A Go `error` result is `Option String` holding the error message,
  `none` for a nil error.
* Stateful consumer callbacks (`yield func(T) bool`, which in Go close
  over mutable state) are `S → T → S × Bool` for an arbitrary state `S`;
  runs are instrumented with traces recording the calls actually made.
-/

namespace RangeFunc

/-- Run of the closure returned by `Filter` (filter demo file, lines 5-19)
when driven with a stateful consumer `yield`. The Go loop walks the slice;
`if !pred(v) \x7b continue \x7d` skips non-matching elements, `if !yield(v)
\x7b break \x7d` stops on consumer request. Returns the final consumer
state, the trace of elements passed to `yield` (in order), and the trace
of elements `pred` was evaluated on (in order). -/
def filterRun {T S : Type} (pred : T → Bool) (yield : S → T → S × Bool) :
    List T → S → S × List T × List T
  | [], s => (s, [], [])
  | v :: vs, s =>
    if pred v then
      let r := yield s v
      if r.2 then
        let rest := filterRun pred yield vs r.1
        (rest.1, v :: rest.2.1, v :: rest.2.2)
      else
        (r.1, [v], [v])
    else
      let rest := filterRun pred yield vs s
      (rest.1, rest.2.1, v :: rest.2.2)

/-- Go's `Filter(values, pred)` returns a closure; applying that closure to
a consumer runs the loop. `Filter values pred yield s` is that
application, instrumented as in `filterRun`. -/
def Filter {T S : Type} (values : List T) (pred : T → Bool)
    (yield : S → T → S × Bool) (s : S) : S × List T × List T :=
  filterRun pred yield values s

/-- Loop of `Max` (stack demo file, lines 100-104): fold the remaining
pulled values, replacing the running maximum on strict increase. -/
def maxLoop {T : Type} [LinearOrder T] (m : T) : List T → T
  | [] => m
  | v :: vs => maxLoop (if v > m then v else m) vs

/-- Error message created by `Max` on an empty sequence. -/
def maxEmptyMsg : String := "Max of empty sequence"

/-- Embeds `Max` (stack demo file, lines 91-107). The argument list is the
stream of values `iter.Pull` delivers, in producer order; `Max` pulls to
exhaustion. An empty pull yields Go's zero value (`default`) plus the
error; otherwise the first value seeds the loop. -/
def Max {T : Type} [LinearOrder T] [Inhabited T] (seq : List T) :
    T × Option String :=
  match seq with
  | [] => (default, some maxEmptyMsg)
  | m :: vs => (maxLoop m vs, none)

/-- Loop of the second `Max` (debug demo file, lines 31-37): identical
fold, but each pulled value is printed first. Returns the fold result and
the list of printed values. -/
def bugLoop {T : Type} [LinearOrder T] (m : T) : List T → T × List T
  | [] => (m, [])
  | v :: vs =>
    let rest := bugLoop (if v > m then v else m) vs
    (rest.1, v :: rest.2)

/-- Embeds `Max` of the debug demo file (lines 21-40): same algorithm as
the stack file's `Max`, plus printing the first value and every further
pulled value. Result pairs the (value, error) with the printed values. -/
def BugMax {T : Type} [LinearOrder T] [Inhabited T] (seq : List T) :
    (T × Option String) × List T :=
  match seq with
  | [] => ((default, some maxEmptyMsg), [])
  | m :: vs =>
    let rest := bugLoop m vs
    ((rest.1, none), m :: rest.2)

/-- Embeds `Ints` of the debug demo file (lines 9-19): the producer of
`0, 1, …, n-1`, modelled by its emitted stream. -/
def Ints (n : Nat) : List Nat := List.range n

theorem maxLoop_spec {T : Type} [LinearOrder T] :
    ∀ (vs : List T) (m : T),
      maxLoop m vs ∈ m :: vs ∧ ∀ x ∈ m :: vs, x ≤ maxLoop m vs := by
  intro vs
  induction vs with
  | nil =>
    intro m
    refine ⟨by simp [maxLoop], ?_⟩
    intro x hx
    have hx2 : x = m := by simpa using hx
    rw [hx2]
    simp [maxLoop]
  | cons v vs ih =>
    intro m
    have hm : maxLoop m (v :: vs) = maxLoop (if v > m then v else m) vs := by
      simp only [maxLoop]
    by_cases h : v > m
    · rw [if_pos h] at hm
      rcases ih v with ⟨hmem, hbd⟩
      constructor
      · rw [hm]
        rcases List.mem_cons.mp hmem with h1 | h1
        · simp [h1]
        · simp [List.mem_cons, h1]
      · intro x hx
        rw [hm]
        simp only [List.mem_cons] at hx
        rcases hx with h1 | h1 | h1
        · rw [h1]
          exact le_trans (le_of_lt h) (hbd v (by simp))
        · rw [h1]
          exact hbd v (by simp)
        · exact hbd x (by simp [h1])
    · rw [if_neg h] at hm
      rcases ih m with ⟨hmem, hbd⟩
      constructor
      · rw [hm]
        rcases List.mem_cons.mp hmem with h1 | h1
        · simp [h1]
        · simp [List.mem_cons, h1]
      · intro x hx
        rw [hm]
        simp only [List.mem_cons] at hx
        rcases hx with h1 | h1 | h1
        · rw [h1]
          exact hbd m (by simp)
        · rw [h1]
          exact le_trans (le_of_not_lt h) (hbd m (by simp))
        · exact hbd x (by simp [h1])

/-- C1: for every non-empty finite sequence over a totally ordered type,
`Max` returns a nil error together with an element of the sequence that
every element is ≤, i.e. the largest element under the order. -/
theorem Max_correct {T : Type} [LinearOrder T] [Inhabited T]
    (l : List T) (h : l ≠ []) :
    (Max l).2 = none ∧ (Max l).1 ∈ l ∧ ∀ x ∈ l, x ≤ (Max l).1 := by
  match l with
  | [] => exact absurd rfl h
  | m :: vs =>
    rcases maxLoop_spec vs m with ⟨hmem, hbd⟩
    exact ⟨rfl, hmem, hbd⟩

/-- Witness for C1, the spec's scenario: `Max` over (0, 1, 2) returns 2
with no error. -/
theorem Max_correct_witness :
    Max [(0 : Int), 1, 2] = (2, none) ∧
      ((Max [(0 : Int), 1, 2]).2 = none ∧ (Max [(0 : Int), 1, 2]).1 ∈ [(0 : Int), 1, 2] ∧
        ∀ x ∈ [(0 : Int), 1, 2], x ≤ (Max [(0 : Int), 1, 2]).1) :=
  ⟨by decide, Max_correct [(0 : Int), 1, 2] (by decide)⟩

/-- C6: on the empty sequence `Max` fails with the empty-sequence error,
and the value returned alongside is the element type's zero value
(`default`). -/
theorem Max_empty {T : Type} [LinearOrder T] [Inhabited T] :
    Max ([] : List T) = (default, some maxEmptyMsg) := rfl

theorem bugLoop_fst {T : Type} [LinearOrder T] :
    ∀ (vs : List T) (m : T), (bugLoop m vs).1 = maxLoop m vs := by
  intro vs
  induction vs with
  | nil => intro m; rfl
  | cons v vs ih => intro m; simp [bugLoop, maxLoop, ih]

theorem bugLoop_snd {T : Type} [LinearOrder T] :
    ∀ (vs : List T) (m : T), (bugLoop m vs).2 = vs := by
  intro vs
  induction vs with
  | nil => intro m; rfl
  | cons v vs ih => intro m; simp [bugLoop, ih]

/-- C10: the two `Max` implementations are result-equivalent: on every
sequence they return the same (value, error) pair; the debug variant
additionally prints exactly the pulled values. -/
theorem Max_equiv {T : Type} [LinearOrder T] [Inhabited T] (l : List T) :
    (BugMax l).1 = Max l ∧ (BugMax l).2 = l := by
  match l with
  | [] => exact ⟨rfl, rfl⟩
  | m :: vs =>
    exact ⟨by simp [BugMax, Max, bugLoop_fst], by simp [BugMax, bugLoop_snd]⟩

theorem filterRun_total {T S : Type} (pred : T → Bool)
    (yield : S → T → S × Bool) (hyes : ∀ s v, (yield s v).2 = true) :
    ∀ (l : List T) (s : S),
      (filterRun pred yield l s).2.1 = l.filter pred ∧
        (filterRun pred yield l s).2.2 = l := by
  intro l
  induction l with
  | nil => intro s; exact ⟨rfl, rfl⟩
  | cons v vs ih =>
    intro s
    by_cases hp : pred v
    · rcases ih (yield s v).1 with ⟨h1, h2⟩
      simp [filterRun, hp, hyes, h1, h2, List.filter]
    · rcases ih s with ⟨h1, h2⟩
      simp only [Bool.not_eq_true] at hp
      simp [filterRun, hp, h1, h2, List.filter]

/-- C3: driving `Filter(S, P)` with a consumer that always continues
emits exactly the elements of `S` satisfying `P`, in `S`'s relative order
(hence the emitted count equals the count of satisfying elements), and
`P` is evaluated exactly once per source element — in particular at most
once. -/
theorem Filter_correct {T S : Type} (values : List T) (pred : T → Bool)
    (yield : S → T → S × Bool) (s : S)
    (hyes : ∀ s v, (yield s v).2 = true) :
    (Filter values pred yield s).2.1 = values.filter pred ∧
      (Filter values pred yield s).2.1.length = (values.filter pred).length ∧
      (Filter values pred yield s).2.2 = values := by
  rcases filterRun_total pred yield hyes values s with ⟨h1, h2⟩
  refine ⟨h1, ?_, h2⟩
  show (filterRun pred yield values s).2.1.length = _
  rw [h1]

/-- Witness for C3, from the spec's scenario: filtering (30, 20, 10) with
"is even" under an accumulating always-continue consumer. -/
theorem Filter_correct_witness :
    (Filter [(30 : Int), 20, 10] (fun v => decide (v % 2 = 0))
        (fun (s : List Int) v => (s ++ [v], true)) []).2.1 =
      ([(30 : Int), 20, 10].filter (fun v => decide (v % 2 = 0))) ∧
      (Filter [(30 : Int), 20, 10] (fun v => decide (v % 2 = 0))
          (fun (s : List Int) v => (s ++ [v], true)) []).2.1.length =
        ([(30 : Int), 20, 10].filter (fun v => decide (v % 2 = 0))).length ∧
      (Filter [(30 : Int), 20, 10] (fun v => decide (v % 2 = 0))
          (fun (s : List Int) v => (s ++ [v], true)) []).2.2 =
        [(30 : Int), 20, 10] :=
  Filter_correct [(30 : Int), 20, 10] (fun v => decide (v % 2 = 0))
    (fun (s : List Int) v => (s ++ [v], true)) [] (fun _ _ => rfl)

theorem filterRun_stop {T S : Type} (pred : T → Bool)
    (yield : S → T → S × Bool) (hstop : ∀ s v, (yield s v).2 = false) :
    ∀ (l : List T) (s : S),
      (filterRun pred yield l s).2.2 =
          l.takeWhile (fun v => !pred v) ++
            (l.dropWhile (fun v => !pred v)).take 1 ∧
        (filterRun pred yield l s).2.1 =
          (l.dropWhile (fun v => !pred v)).take 1 := by
  intro l
  induction l with
  | nil => intro s; exact ⟨rfl, rfl⟩
  | cons v vs ih =>
    intro s
    by_cases hp : pred v
    · simp [filterRun, hp, hstop, List.takeWhile_cons, List.dropWhile_cons]
    · rcases ih s with ⟨h1, h2⟩
      simp only [Bool.not_eq_true] at hp
      simp [filterRun, hp, h1, h2, List.takeWhile_cons, List.dropWhile_cons]

/-- C7: `Filter` is lazy. Calling `Filter` itself performs no traversal
(it returns a closure, a function value in the embedding); when a
downstream consumer stops at the first delivered match, the predicate is
evaluated only on the prefix up to and including the first satisfying
element — exactly one element beyond the non-matching prefix — and only
that first match is emitted. -/
theorem Filter_lazy {T S : Type} (values : List T) (pred : T → Bool)
    (yield : S → T → S × Bool) (s : S)
    (hstop : ∀ s v, (yield s v).2 = false)
    (hex : ∃ v ∈ values, pred v = true) :
    (Filter values pred yield s).2.2 =
        values.takeWhile (fun v => !pred v) ++
          (values.dropWhile (fun v => !pred v)).take 1 ∧
      (Filter values pred yield s).2.1 =
        (values.dropWhile (fun v => !pred v)).take 1 ∧
      (Filter values pred yield s).2.2.length =
        (values.takeWhile (fun v => !pred v)).length + 1 := by
  rcases filterRun_stop pred yield hstop values s with ⟨h1, h2⟩
  refine ⟨h1, h2, ?_⟩
  show (filterRun pred yield values s).2.2.length = _
  rw [h1]
  have hne : values.dropWhile (fun v => !pred v) ≠ [] := by
    intro hnil
    rcases hex with ⟨v, hv, hpv⟩
    have hall := List.dropWhile_eq_nil_iff.mp hnil v hv
    simp [hpv] at hall
  match hd : values.dropWhile (fun v => !pred v) with
  | [] => exact absurd hd hne
  | w :: ws => simp

/-- Witness for C7: source (1, 3, 4, 6), predicate "greater than 3",
stop-after-first-match consumer: only (1, 3, 4) are tested, only 4 is
emitted. -/
theorem Filter_lazy_witness :
    (Filter [(1 : Int), 3, 4, 6] (fun v => decide (3 < v))
        (fun (s : List Int) v => (v :: s, false)) []).2.2 =
        ([(1 : Int), 3, 4, 6].takeWhile (fun v => !decide (3 < v)) ++
          ([(1 : Int), 3, 4, 6].dropWhile (fun v => !decide (3 < v))).take 1) ∧
      (Filter [(1 : Int), 3, 4, 6] (fun v => decide (3 < v))
          (fun (s : List Int) v => (v :: s, false)) []).2.1 =
        ([(1 : Int), 3, 4, 6].dropWhile (fun v => !decide (3 < v))).take 1 ∧
      (Filter [(1 : Int), 3, 4, 6] (fun v => decide (3 < v))
          (fun (s : List Int) v => (v :: s, false)) []).2.2.length =
        ([(1 : Int), 3, 4, 6].takeWhile (fun v => !decide (3 < v))).length + 1 :=
  Filter_lazy [(1 : Int), 3, 4, 6] (fun v => decide (3 < v))
    (fun (s : List Int) v => (v :: s, false)) [] (fun _ _ => rfl)
    ⟨4, by decide, by decide⟩

/-- One stack node (stack demo file, lines 10-13): a value and a pointer
to the next node. A pointer is `Option Nat` — an address into the heap,
or `none` for Go's nil. Nodes are never mutated after allocation. -/
structure Node (T : Type) where
  value : T
  next : Option Nat
deriving DecidableEq, Repr

/-- Heap of stack nodes: the node at address `a` is `nodes[a]?`.
Allocation appends, so fresh addresses grow; `Push` only ever links a new
node to the previous head, hence every `next` pointer goes to a strictly
smaller address (see `Mem.wf`). -/
structure Mem (T : Type) where
  nodes : List (Node T)
deriving DecidableEq, Repr

/-- Chains are acyclic because allocation order bounds pointers: each
node's `next` points to a strictly earlier address. Every heap reachable
by `Push`/`Pop` from the empty heap satisfies this. -/
def Mem.wf {T : Type} (m : Mem T) : Prop :=
  ∀ (a : Nat) (nd : Node T), m.nodes[a]? = some nd →
    ∀ b, nd.next = some b → b < a

/-- A pointer is valid when it is nil or addresses an allocated node. -/
def ptrOk {T : Type} (m : Mem T) (p : Option Nat) : Prop :=
  ∀ a, p = some a → a < m.nodes.length

/-- The empty heap. -/
def Mem.empty (T : Type) : Mem T := ⟨[]⟩

/-- Embeds `Push` (stack demo file, lines 19-21):
`s.head = &node[T]\x7bv, s.head\x7d` allocates a node holding `v` whose
`next` is the old head, and the new node becomes the head. Returns the
heap after allocation and the new head pointer. -/
def Push {T : Type} (m : Mem T) (head : Option Nat) (v : T) :
    Mem T × Option Nat :=
  (⟨m.nodes ++ [⟨v, head⟩]⟩, some m.nodes.length)

/-- Error message of `ErrEmpty` (stack demo file, line 23). -/
def errEmptyMsg : String := "empty stack"

/-- Embeds `Pop` (stack demo file, lines 25-34): on a nil head return the
zero value and `ErrEmpty`; otherwise return the head's value and move the
head to its successor. The heap itself is never written (Go relies on
garbage collection), so `Pop` returns only the result pair and the new
head pointer. The dangling-pointer branch is unreachable: in Go a non-nil
head always dereferences. -/
def Pop {T : Type} [Inhabited T] (m : Mem T) (head : Option Nat) :
    (T × Option String) × Option Nat :=
  match head with
  | none => ((default, some errEmptyMsg), none)
  | some a =>
    match m.nodes[a]? with
    | some nd => ((nd.value, none), nd.next)
    | none => ((default, none), head)

/-- Embeds `Items` (stack demo file, lines 36-38): a new cursor holds the
current head pointer — a snapshot of the chain start. -/
def Items (head : Option Nat) : Option Nat := head

/-- Embeds `StackIterator.Next` (stack demo file, lines 44-53): on a nil
position return the zero value and false; otherwise return the current
node's value, true, and advance the position. Only the cursor's own
position changes; the heap and the stack head are untouched, which is why
`Next` takes the heap read-only. -/
def Next {T : Type} [Inhabited T] (m : Mem T) (p : Option Nat) :
    (T × Bool) × Option Nat :=
  match p with
  | none => ((default, false), none)
  | some a =>
    match m.nodes[a]? with
    | some nd => ((nd.value, true), nd.next)
    | none => ((default, false), p)

/-- Values along the chain starting at pointer `p`, with explicit fuel.
Under `Mem.wf` addresses strictly decrease along a chain, so any fuel
above the start address yields the full chain (`chainF_congr`). -/
def chainF {T : Type} (m : Mem T) : Nat → Option Nat → List T
  | _, none => []
  | 0, some _ => []
  | f + 1, some a =>
    match m.nodes[a]? with
    | some nd => nd.value :: chainF m f nd.next
    | none => []

/-- Values along the chain starting at `p`: the element sequence of a
stack whose head is `p`, head to tail. Fuel `m.nodes.length` suffices for
every valid pointer in a well-formed heap. -/
def chain {T : Type} (m : Mem T) (p : Option Nat) : List T :=
  chainF m m.nodes.length p

/-- Repeatedly calling the cursor's `Next` until it reports false,
collecting the returned values (the loop at lines 128-131 of the stack
demo file), with explicit fuel. -/
def drainF {T : Type} [Inhabited T] (m : Mem T) :
    Nat → Option Nat → List T
  | 0, _ => []
  | f + 1, p =>
    let r := Next m p
    if r.1.2 then r.1.1 :: drainF m f r.2 else []

/-- Full drain of a cursor at `p`. -/
def drain {T : Type} [Inhabited T] (m : Mem T) (p : Option Nat) : List T :=
  drainF m m.nodes.length p

/-- Run of the closure returned by `Iter` (stack demo file, lines 67-77)
with a stateful consumer: walk the chain from the head, yield each value,
return immediately when the consumer answers false. Instrumented with the
trace of (value, consumer answer) pairs of the calls actually made. -/
def IterRun {T S : Type} (m : Mem T) (yield : S → T → S × Bool) :
    Nat → Option Nat → S → S × List (T × Bool)
  | _, none, s => (s, [])
  | 0, some _, s => (s, [])
  | f + 1, some a, s =>
    match m.nodes[a]? with
    | some nd =>
      let r := yield s nd.value
      if r.2 then
        let rest := IterRun m yield f nd.next r.1
        (rest.1, (nd.value, true) :: rest.2)
      else
        (r.1, [(nd.value, false)])
    | none => (s, [])

/-- List-level counterpart of `IterRun`: the same loop driven by the
element list of the chain (used to state the protocol property). -/
def seqRun {T S : Type} (yield : S → T → S × Bool) :
    List T → S → S × List (T × Bool)
  | [], s => (s, [])
  | v :: vs, s =>
    let r := yield s v
    if r.2 then
      let rest := seqRun yield vs r.1
      (rest.1, (v, true) :: rest.2)
    else
      (r.1, [(v, false)])

/-- Pushing a list of values in order, threading heap and head. -/
def pushAll {T : Type} (m : Mem T) (head : Option Nat) :
    List T → Mem T × Option Nat
  | [] => (m, head)
  | v :: vs =>
    let r := Push m head v
    pushAll r.1 r.2 vs

/-- Popping `n` times, collecting the (value, error) results in order and
the final head pointer. -/
def popN {T : Type} [Inhabited T] (m : Mem T) (head : Option Nat) :
    Nat → List (T × Option String) × Option Nat
  | 0 => ([], head)
  | n + 1 =>
    let r := Pop m head
    let rest := popN m r.2 n
    (r.1 :: rest.1, rest.2)

theorem chainF_nil {T : Type} (m : Mem T) (f : Nat) : chainF m f none = [] := by
  cases f <;> rfl

theorem chainF_congr {T : Type} (m : Mem T) (hwf : m.wf) :
    ∀ (f1 f2 a : Nat), a < f1 → a < f2 →
      chainF m f1 (some a) = chainF m f2 (some a) := by
  intro f1
  induction f1 with
  | zero => intro f2 a h1 h2; omega
  | succ g ih =>
    intro f2 a h1 h2
    obtain ⟨g2, rfl⟩ : ∃ g2, f2 = g2 + 1 := ⟨f2 - 1, by omega⟩
    simp only [chainF]
    cases hnd : m.nodes[a]? with
    | none => rfl
    | some nd =>
      show nd.value :: chainF m g nd.next = nd.value :: chainF m g2 nd.next
      cases hnx : nd.next with
      | none => rw [chainF_nil, chainF_nil]
      | some b =>
        have hb : b < a := hwf a nd hnd b hnx
        rw [ih g2 b (by omega) (by omega)]

theorem chainF_append {T : Type} (m : Mem T) (x : Node T) (hwf : m.wf) :
    ∀ (f a : Nat), a < m.nodes.length →
      chainF ⟨m.nodes ++ [x]⟩ f (some a) = chainF m f (some a) := by
  intro f
  induction f with
  | zero => intro a ha; rfl
  | succ g ih =>
    intro a ha
    simp only [chainF]
    rw [show (Mem.mk (m.nodes ++ [x])).nodes[a]? = m.nodes[a]? from
      List.getElem?_append_left ha]
    cases hnd : m.nodes[a]? with
    | none => rfl
    | some nd =>
      show nd.value :: chainF ⟨m.nodes ++ [x]⟩ g nd.next =
        nd.value :: chainF m g nd.next
      cases hnx : nd.next with
      | none => rw [chainF_nil, chainF_nil]
      | some b =>
        have hb : b < a := hwf a nd hnd b hnx
        rw [ih b (by omega)]

theorem chain_none {T : Type} (m : Mem T) : chain m none = [] :=
  chainF_nil m m.nodes.length

theorem chain_cons {T : Type} (m : Mem T) (hwf : m.wf) (a : Nat)
    (nd : Node T) (hnd : m.nodes[a]? = some nd) :
    chain m (some a) = nd.value :: chain m nd.next := by
  have ha : a < m.nodes.length := by
    by_contra hc
    rw [List.getElem?_eq_none (by omega)] at hnd
    cases hnd
  obtain ⟨g, hg⟩ : ∃ g, m.nodes.length = g + 1 := ⟨m.nodes.length - 1, by omega⟩
  show chainF m m.nodes.length (some a) = nd.value :: chainF m m.nodes.length nd.next
  rw [hg]
  simp only [chainF]
  rw [hnd]
  show nd.value :: chainF m g nd.next = nd.value :: chainF m (g + 1) nd.next
  cases hnx : nd.next with
  | none => rw [chainF_nil, chainF_nil]
  | some b =>
    have hb : b < a := hwf a nd hnd b hnx
    rw [chainF_congr m hwf g (g + 1) b (by omega) (by omega)]

theorem ptrOk_next {T : Type} (m : Mem T) (hwf : m.wf) (a : Nat)
    (nd : Node T) (hnd : m.nodes[a]? = some nd) (ha : a < m.nodes.length) :
    ptrOk m nd.next := by
  intro b hb
  exact lt_trans (hwf a nd hnd b hb) ha

theorem Push_spec {T : Type} (m : Mem T) (head : Option Nat) (v : T)
    (hwf : m.wf) (hok : ptrOk m head) :
    (Push m head v).1.wf ∧ ptrOk (Push m head v).1 (Push m head v).2 ∧
      chain (Push m head v).1 (Push m head v).2 = v :: chain m head := by
  refine ⟨?_, ?_, ?_⟩
  · intro a nd hnd b hb
    simp only [Push] at hnd
    rcases Nat.lt_trichotomy a m.nodes.length with ha | ha | ha
    · rw [List.getElem?_append_left ha] at hnd
      exact hwf a nd hnd b hb
    · subst ha
      rw [List.getElem?_concat_length] at hnd
      injection hnd with hnd
      subst hnd
      simp only at hb
      exact hok b hb
    · rw [List.getElem?_eq_none (by simp; omega)] at hnd
      cases hnd
  · intro a ha
    simp only [Push] at ha
    injection ha with ha
    subst ha
    simp [Push]
  · show chainF ⟨m.nodes ++ [⟨v, head⟩]⟩
      (Mem.mk (m.nodes ++ [⟨v, head⟩])).nodes.length (some m.nodes.length) =
        v :: chain m head
    rw [show (Mem.mk (m.nodes ++ [⟨v, head⟩])).nodes.length =
      m.nodes.length + 1 by simp]
    simp only [chainF]
    rw [show (Mem.mk (m.nodes ++ [⟨v, head⟩])).nodes[m.nodes.length]? =
      some ⟨v, head⟩ from List.getElem?_concat_length m.nodes ⟨v, head⟩]
    show v :: chainF ⟨m.nodes ++ [⟨v, head⟩]⟩ m.nodes.length head = v :: chain m head
    cases head with
    | none => rw [chainF_nil, chain_none]
    | some a =>
      have ha : a < m.nodes.length := hok a rfl
      rw [chainF_append m ⟨v, some a⟩ hwf m.nodes.length a ha]
      rfl

theorem Pop_spec_cons {T : Type} [Inhabited T] (m : Mem T)
    (head : Option Nat) (hwf : m.wf) (hok : ptrOk m head)
    (v : T) (rest : List T) (hch : chain m head = v :: rest) :
    (Pop m head).1 = (v, none) ∧ chain m (Pop m head).2 = rest ∧
      ptrOk m (Pop m head).2 := by
  cases head with
  | none => rw [chain_none] at hch; cases hch
  | some a =>
    have ha : a < m.nodes.length := hok a rfl
    cases hnd : m.nodes[a]? with
    | none =>
      have := List.getElem?_eq_none_iff.mp hnd
      omega
    | some nd =>
      rw [chain_cons m hwf a nd hnd] at hch
      injection hch with hv hrest
      refine ⟨?_, ?_, ?_⟩
      · simp [Pop, hnd, hv]
      · simp only [Pop, hnd]
        exact hrest
      · simp only [Pop, hnd]
        exact ptrOk_next m hwf a nd hnd ha

theorem popN_spec {T : Type} [Inhabited T] (m : Mem T) (hwf : m.wf) :
    ∀ (k : Nat) (head : Option Nat), ptrOk m head →
      k ≤ (chain m head).length →
      (popN m head k).1 =
          ((chain m head).take k).map (fun v => (v, (none : Option String))) ∧
        chain m (popN m head k).2 = (chain m head).drop k ∧
        ptrOk m (popN m head k).2 := by
  intro k
  induction k with
  | zero => intro head hok hk; exact ⟨rfl, rfl, hok⟩
  | succ n ih =>
    intro head hok hk
    match hch : chain m head with
    | [] => rw [hch] at hk; simp at hk
    | v :: rest =>
      rcases Pop_spec_cons m head hwf hok v rest hch with ⟨h1, h2, h3⟩
      have hk2 : n ≤ (chain m (Pop m head).2).length := by
        rw [h2]
        rw [hch] at hk
        simpa using hk
      rcases ih (Pop m head).2 h3 hk2 with ⟨ih1, ih2, ih3⟩
      refine ⟨?_, ?_, ih3⟩
      · show (Pop m head).1 :: (popN m (Pop m head).2 n).1 = _
        rw [h1, ih1, h2]
        simp
      · show chain m (popN m (Pop m head).2 n).2 = _
        rw [ih2, h2]
        rfl

theorem pushAll_spec {T : Type} :
    ∀ (vs : List T) (m : Mem T) (head : Option Nat), m.wf → ptrOk m head →
      (pushAll m head vs).1.wf ∧
        ptrOk (pushAll m head vs).1 (pushAll m head vs).2 ∧
        chain (pushAll m head vs).1 (pushAll m head vs).2 =
          vs.reverse ++ chain m head := by
  intro vs
  induction vs with
  | nil => intro m head hwf hok; exact ⟨hwf, hok, by simp [pushAll]⟩
  | cons v vs ih =>
    intro m head hwf hok
    rcases Push_spec m head v hwf hok with ⟨hwf1, hok1, hc⟩
    rcases ih (Push m head v).1 (Push m head v).2 hwf1 hok1 with ⟨ih1, ih2, ih3⟩
    refine ⟨ih1, ih2, ?_⟩
    have hstep : pushAll m head (v :: vs) =
        pushAll (Push m head v).1 (Push m head v).2 vs := rfl
    rw [hstep, ih3, hc]
    simp

/-- C2: LIFO order. Starting from any well-formed stack, pushing
`v1, …, vn` with no interleaved pops and then popping `n` times returns
`vn, …, v1`, every pop succeeding with a nil error. -/
theorem Push_Pop_lifo {T : Type} [Inhabited T] (m : Mem T)
    (head : Option Nat) (vs : List T) (hwf : m.wf) (hok : ptrOk m head) :
    (popN (pushAll m head vs).1 (pushAll m head vs).2 vs.length).1 =
      vs.reverse.map (fun v => (v, (none : Option String))) := by
  rcases pushAll_spec vs m head hwf hok with ⟨h1, h2, h3⟩
  have hlen : vs.length ≤ (chain (pushAll m head vs).1 (pushAll m head vs).2).length := by
    rw [h3]; simp
  rcases popN_spec (pushAll m head vs).1 h1 vs.length (pushAll m head vs).2 h2 hlen
    with ⟨hp, _, _⟩
  rw [hp, h3]
  rw [show vs.length = vs.reverse.length from (List.length_reverse vs).symm]
  rw [List.take_left]

/-- Witness for C2, the spec's scenario: pushing 10, 20, 30 onto an empty
stack and popping three times yields 30, 20, 10, each with a nil error. -/
theorem Push_Pop_lifo_witness :
    (popN (pushAll (Mem.empty Int) none [10, 20, 30]).1
        (pushAll (Mem.empty Int) none [10, 20, 30]).2 3).1 =
      [((30 : Int), none), (20, none), (10, none)] ∧
      (popN (pushAll (Mem.empty Int) none [10, 20, 30]).1
          (pushAll (Mem.empty Int) none [10, 20, 30]).2
          ([(10 : Int), 20, 30] : List Int).length).1 =
        ([(10 : Int), 20, 30] : List Int).reverse.map
          (fun v => (v, (none : Option String))) :=
  ⟨by decide,
    Push_Pop_lifo (Mem.empty Int) none [10, 20, 30]
      (by intro a nd hnd b hb; simp [Mem.empty] at hnd)
      (by intro a ha; simp at ha)⟩

/-- C4: the only error of the container. `Pop` on a nil head always
returns `ErrEmpty` together with the zero value — never a stale value,
whatever stale nodes the heap still holds — and `Pop` on a non-nil
(valid) head never returns an error. -/
theorem Pop_empty_only_error {T : Type} [Inhabited T] (m : Mem T)
    (head : Option Nat) (hok : ptrOk m head) :
    (head = none → Pop m head = ((default, some errEmptyMsg), none)) ∧
      (head ≠ none → (Pop m head).1.2 = none) := by
  constructor
  · intro h; subst h; rfl
  · intro h
    cases head with
    | none => exact absurd rfl h
    | some a =>
      have ha : a < m.nodes.length := hok a rfl
      obtain ⟨nd, hnd⟩ : ∃ nd, m.nodes[a]? = some nd := by
        cases hnd2 : m.nodes[a]? with
        | none =>
          have := List.getElem?_eq_none_iff.mp hnd2
          omega
        | some nd => exact ⟨nd, rfl⟩
      simp [Pop, hnd]

/-- Witness for C4: a fully drained stack — the heap still holds the
stale node of a popped 10, the head is nil — pops to the zero value 0 and
the empty-stack error, not to the stale 10. -/
theorem Pop_empty_only_error_witness :
    Pop (Mem.mk [Node.mk (10 : Int) none]) none =
        (((0 : Int), some errEmptyMsg), none) ∧
      ((none = (none : Option Nat) →
          Pop (Mem.mk [Node.mk (10 : Int) none]) none =
            ((default, some errEmptyMsg), none)) ∧
        ((none : Option Nat) ≠ none →
          (Pop (Mem.mk [Node.mk (10 : Int) none]) none).1.2 = none)) :=
  ⟨by decide,
    Pop_empty_only_error (Mem.mk [Node.mk (10 : Int) none]) none
      (by intro a ha; simp at ha)⟩

/-- C9: failing `Pop` is atomic. On a nil head, `Pop` reads nothing from
the heap and writes nothing (its type takes the heap read-only, exactly
as the source writes only `s.head`), returns the unchanged nil head, and
the value accompanying the error is the element type's zero value. -/
theorem Pop_empty_atomic {T : Type} [Inhabited T] (m : Mem T) :
    Pop m none = ((default, some errEmptyMsg), none) := rfl

theorem drainF_eq_chainF {T : Type} [Inhabited T] (m : Mem T) :
    ∀ (f : Nat) (p : Option Nat), drainF m f p = chainF m f p := by
  intro f
  induction f with
  | zero => intro p; cases p <;> rfl
  | succ g ih =>
    intro p
    cases p with
    | none => rfl
    | some a =>
      cases hnd : m.nodes[a]? with
      | none => simp [drainF, chainF, Next, hnd]
      | some nd => simp [drainF, chainF, Next, hnd, ih]

/-- C5: cursor independence. A cursor is a snapshot: draining it yields
exactly the chain from the head it captured. `Next` and `Pop` take the
heap read-only (they mutate nothing but their own pointer, as in the
source), so draining one cursor, or popping the stack, cannot change what
another cursor produces; and a `Push` after cursor creation — the one
operation that does extend the heap — leaves the cursor's produced
sequence unchanged: the new node is invisible to it. Hence two cursors
made from the same stack state each produce that state's chain, whichever
is drained first. -/
theorem cursor_independence {T : Type} [Inhabited T] (m : Mem T)
    (head : Option Nat) (v : T) (hwf : m.wf) (hok : ptrOk m head) :
    drain m (Items head) = chain m head ∧
      drain (Push m head v).1 (Items head) = chain m head := by
  constructor
  · show drainF m m.nodes.length head = chain m head
    rw [drainF_eq_chainF]
    rfl
  · show drainF (Push m head v).1 (Push m head v).1.nodes.length head = chain m head
    rw [drainF_eq_chainF]
    have hlen : (Push m head v).1.nodes.length = m.nodes.length + 1 := by
      simp [Push]
    rw [hlen]
    cases head with
    | none => rw [chainF_nil, chain_none]
    | some a =>
      have ha : a < m.nodes.length := hok a rfl
      show chainF ⟨m.nodes ++ [⟨v, some a⟩]⟩ (m.nodes.length + 1) (some a) = chain m (some a)
      rw [chainF_append m ⟨v, some a⟩ hwf (m.nodes.length + 1) a ha]
      exact chainF_congr m hwf (m.nodes.length + 1) m.nodes.length a (by omega) ha

/-- Witness for C5: a stack holding 20 on top of 10; its cursor drains to
(20, 10), both as created and after a later push of 99. -/
theorem cursor_independence_witness :
    drain (Mem.mk [Node.mk (10 : Int) none, Node.mk 20 (some 0)])
        (Items (some 1)) =
      chain (Mem.mk [Node.mk (10 : Int) none, Node.mk 20 (some 0)]) (some 1) ∧
      drain (Push (Mem.mk [Node.mk (10 : Int) none, Node.mk 20 (some 0)])
          (some 1) 99).1 (Items (some 1)) =
        chain (Mem.mk [Node.mk (10 : Int) none, Node.mk 20 (some 0)]) (some 1) :=
  cursor_independence (Mem.mk [Node.mk (10 : Int) none, Node.mk 20 (some 0)])
    (some 1) 99
    (by
      intro a nd hnd b hb
      match a, hnd with
      | 0, hnd =>
        simp at hnd
        rw [← hnd] at hb
        simp at hb
      | 1, hnd =>
        simp at hnd
        rw [← hnd] at hb
        simp at hb
        omega
      | n + 2, hnd => simp at hnd)
    (by intro a ha; injection ha with ha; simp; omega)

theorem IterRun_eq_seqRun {T S : Type} (m : Mem T) (yield : S → T → S × Bool) :
    ∀ (f : Nat) (p : Option Nat) (s : S),
      IterRun m yield f p s = seqRun yield (chainF m f p) s := by
  intro f
  induction f with
  | zero => intro p s; cases p <;> rfl
  | succ g ih =>
    intro p s
    cases p with
    | none => rfl
    | some a =>
      cases hnd : m.nodes[a]? with
      | none => simp [IterRun, chainF, hnd, seqRun]
      | some nd => simp [IterRun, chainF, hnd, seqRun, ih]

theorem seqRun_spec {T S : Type} (yield : S → T → S × Bool) :
    ∀ (L : List T) (s : S),
      (seqRun yield L s).2 = L.map (fun v => (v, true)) ∨
        ∃ pre w post, L = pre ++ w :: post ∧
          (seqRun yield L s).2 = pre.map (fun v => (v, true)) ++ [(w, false)] := by
  intro L
  induction L with
  | nil => intro s; left; rfl
  | cons v vs ih =>
    intro s
    cases hy : (yield s v).2 with
    | false =>
      right
      exact ⟨[], v, vs, rfl, by simp [seqRun, hy]⟩
    | true =>
      rcases ih (yield s v).1 with h | ⟨pre, w, post, hL, h⟩
      · left
        simp [seqRun, hy, h]
      · right
        refine ⟨v :: pre, w, post, by rw [hL]; simp, ?_⟩
        simp [seqRun, hy, h]

/-- C8: protocol fairness of the producer returned by `Iter`. Driving it
with any consumer either invokes the consumer once per element of the
stack's chain, head to tail, all answered true — or, if the consumer
answers false at some element, the call trace is exactly the chain's
prefix up to and including that element, with the false answer last: the
producer stops immediately and never invokes the consumer again. -/
theorem Iter_protocol {T S : Type} (m : Mem T) (yield : S → T → S × Bool)
    (head : Option Nat) (s : S) :
    (IterRun m yield m.nodes.length head s).2 =
        (chain m head).map (fun v => (v, true)) ∨
      ∃ pre w post, chain m head = pre ++ w :: post ∧
        (IterRun m yield m.nodes.length head s).2 =
          pre.map (fun v => (v, true)) ++ [(w, false)] := by
  rw [IterRun_eq_seqRun]
  exact seqRun_spec yield (chain m head) s

end RangeFunc
